import Mathlib

/-
Verification development for the lixo mesh pipeline (meshpyvista*.py).
The labeling stage (label_connected_components in meshpyvista7.py) is
embedded directly; the external vision primitive cv2.connectedComponents
is abstracted by a parameter constrained by its documented contract, and
an executable stand-in is provided to evaluate concrete instances.
-/

set_option autoImplicit false

namespace MeshPyVista

/-- A 2D slice of a volume: rows of voxel values (a numpy 2D array). -/
abbrev Grid := List (List Nat)

/-- Read pixel (j, l) of a grid, with 0 (the background value) outside bounds. -/
def pix (g : Grid) (j l : Nat) : Nat := (g.getD j []).getD l 0

/-- Model of numpy astype(uint8) applied to a slice: values reduced modulo 256
(source line 52: volume[i].astype(np.uint8)). -/
def castUint8 (g : Grid) : Grid := g.map (fun row => row.map (fun v => v % 256))

/-- A value occurs somewhere in a grid. -/
def gridMem (v : Nat) (g : Grid) : Prop := ∃ row ∈ g, v ∈ row

instance gridMem.dec (v : Nat) (g : Grid) : Decidable (gridMem v g) := by
  unfold gridMem; infer_instance

/-- Contract of cv2.connectedComponents on a uint8 image: result (numLabels,
labels) has the same shape as the image, numLabels is at least 1 (the
background label 0 is always counted), a pixel is labeled 0 exactly when it is
background, all labels are below numLabels, and every positive label below
numLabels is attained by some pixel. -/
def CCContract (img : Grid) (r : Nat × Grid) : Prop :=
  r.2.length = img.length ∧
  (∀ j, j < img.length → (r.2.getD j []).length = (img.getD j []).length) ∧
  1 ≤ r.1 ∧
  (∀ j, j < img.length → ∀ l, l < (img.getD j []).length →
    ((pix r.2 j l = 0 ↔ pix img j l = 0) ∧ pix r.2 j l < r.1)) ∧
  (∀ x, x < r.1 → 0 < x → gridMem x r.2)

instance CCContract.dec (img : Grid) (r : Nat × Grid) : Decidable (CCContract img r) := by
  unfold CCContract; infer_instance

/-- Offset applied to one label value: positive labels are shifted by c,
background stays 0 (source line 53: labels[labels > 0] += current_label). -/
def shiftVal (c v : Nat) : Nat := if 0 < v then v + c else v

/-- Offset every positive label of a slice labeling by c. -/
def shiftSlice (c : Nat) (g : Grid) : Grid := g.map (fun row => row.map (shiftVal c))

/-- The slice loop of label_connected_components (source lines 51-55), with cc
standing for cv2.connectedComponents: each slice is cast to uint8, labeled
independently, its positive labels shifted by the current value of
current_label, and current_label grows by numLabels - 1. Returns the labeled
slices and the final value of current_label. -/
def labelLoop (cc : Grid → Nat × Grid) : Nat → List Grid → List Grid × Nat
  | current, [] => ([], current)
  | current, s :: rest =>
    let r := cc (castUint8 s)
    let out := labelLoop cc (current + (r.1 - 1)) rest
    (shiftSlice current r.2 :: out.1, out.2)

/-- label_connected_components (source lines 44-57): current_label starts at 1
and the function returns the labeled volume together with current_label - 1 as
the number of components. -/
def label_connected_components (cc : Grid → Nat × Grid) (volume : List Grid) :
    List Grid × Nat :=
  let r := labelLoop cc 1 volume
  (r.1, r.2 - 1)

/-- Number of foreground components cc reports for one slice (numLabels - 1). -/
def sliceK (cc : Grid → Nat × Grid) (s : Grid) : Nat := (cc (castUint8 s)).1 - 1

/-- Total number of components over a list of slices. -/
def totalK (cc : Grid → Nat × Grid) : List Grid → Nat
  | [] => 0
  | s :: rest => sliceK cc s + totalK cc rest

/-- Components found in the first i slices: the running offset accumulated
before slice i is processed. -/
def prefixK (cc : Grid → Nat × Grid) : List Grid → Nat → Nat
  | _, 0 => 0
  | [], _ + 1 => 0
  | s :: rest, i + 1 => sliceK cc s + prefixK cc rest i

/-- A value occurs somewhere in a labeled volume. -/
def volMem (v : Nat) (vol : List Grid) : Prop := ∃ g ∈ vol, gridMem v g

instance volMem.dec (v : Nat) (vol : List Grid) : Decidable (volMem v vol) := by
  unfold volMem; infer_instance

/-- Largest value occurring in a labeled volume (0 for an empty volume). -/
def volMax (vol : List Grid) : Nat :=
  (vol.foldr (fun g acc => g.foldr (fun row acc2 => row.foldr max acc2) acc) 0)

/-! ### Executable stand-in for cv2.connectedComponents

Used to instantiate witnesses and counterexamples on concrete inputs: a
min-label relaxation over the 8-neighborhood, followed by compaction of the
surviving labels to 1..k in row-major first-occurrence order. Background
pixels (value 0) keep label 0 and the returned count includes the background
label, exactly as cv2 does. -/

/-- Minimum of two labels ignoring background 0. -/
def posMin (a b : Nat) : Nat := if a = 0 then b else if b = 0 then a else min a b

/-- Total number of cells in a grid. -/
def cellCount (g : Grid) : Nat := g.foldr (fun row acc => row.length + acc) 0

/-- Bound larger than any row length, used to build distinct provisional labels. -/
def gridW (g : Grid) : Nat := 1 + (g.map List.length).foldr max 0

/-- Provisional labeling: every nonzero pixel gets a distinct positive label. -/
def initLabels (g : Grid) : Grid :=
  (List.range g.length).map (fun j =>
    (List.range ((g.getD j []).length)).map (fun l =>
      if pix g j l = 0 then 0 else j * gridW g + l + 1))

/-- One relaxation step at a pixel: background stays 0, a foreground pixel
takes the least positive label among itself and its 8 neighbors. -/
def relaxPix (g : Grid) (j l : Nat) : Nat :=
  if pix g j l = 0 then 0 else
    posMin (pix g (j - 1) (l - 1)) (posMin (pix g (j - 1) l) (posMin (pix g (j - 1) (l + 1))
      (posMin (pix g j (l - 1)) (posMin (pix g j l) (posMin (pix g j (l + 1))
      (posMin (pix g (j + 1) (l - 1)) (posMin (pix g (j + 1) l) (pix g (j + 1) (l + 1)))))))))

/-- One full relaxation sweep. -/
def relaxOnce (g : Grid) : Grid :=
  (List.range g.length).map (fun j =>
    (List.range ((g.getD j []).length)).map (fun l => relaxPix g j l))

/-- Iterate the relaxation sweep. -/
def iterRelax : Nat → Grid → Grid
  | 0, g => g
  | n + 1, g => iterRelax n (relaxOnce g)

/-- Positive labels of a grid in row-major first-occurrence order. -/
def collectPos (g : Grid) : List Nat :=
  g.foldl (fun acc row => row.foldl (fun acc2 v =>
    if v = 0 then acc2 else if v ∈ acc2 then acc2 else acc2 ++ [v]) acc) []

/-- Compact the positive labels of a grid to 1..k in first-occurrence order. -/
def compactLabels (g : Grid) : Grid :=
  let seen := collectPos g
  g.map (fun row => row.map (fun v =>
    if v = 0 then 0 else seen.findIdx (fun x => x == v) + 1))

/-- Executable model of cv2.connectedComponents (8-connectivity): returns the
label count including background, and the labeled grid. -/
def connectedComponents (img : Grid) : Nat × Grid :=
  let g := iterRelax (cellCount img) (initLabels img)
  ((collectPos g).length + 1, compactLabels g)

/-! ### Export path naming

Python str.replace(pat, rep) semantics: scan left to right, replacing every
non-overlapping occurrence of pat (source line 106:
args.output.replace(".obj", f"_\x7bidx\x7d.obj")). -/

def strReplaceF (pat rep : List Char) : Nat → List Char → List Char
  | _, [] => []
  | 0, s => s
  | fuel + 1, c :: s =>
    if pat ≠ [] ∧ (c :: s).take pat.length = pat then
      rep ++ strReplaceF pat rep fuel ((c :: s).drop pat.length)
    else
      c :: strReplaceF pat rep fuel s

def strReplace (pat rep s : List Char) : List Char := strReplaceF pat rep s.length s

/-- The pattern pat occurs in s at position i. -/
def patAt (pat s : List Char) (i : Nat) : Prop := (s.drop i).take pat.length = pat

instance patAt.dec (pat s : List Char) (i : Nat) : Decidable (patAt pat s i) := by
  unfold patAt; infer_instance

/-- Export file name for the region of zero-based index idx (source line 106). -/
def objName (base : List Char) (idx : Nat) : List Char :=
  strReplace (String.toList ".obj") (String.toList ("_" ++ toString idx ++ ".obj")) base

/-! ### Meshes, geometry kernels and the refinement pipelines -/

/-- A mesh, abstracted by its triangle count (all the claims need). -/
structure Mesh where
  tris : Nat
deriving DecidableEq

/-- The geometry-kernel stage that raised an exception. -/
inductive KErr where
  | smoothErr
  | triErr
  | decErr
  | normErr
deriving DecidableEq

/-- The external geometry kernels (pyvista smooth / triangulate / decimate /
compute_normals); each call either returns a mesh or throws. -/
structure GeomKernels where
  smooth : Nat → Mesh → Except KErr Mesh
  triangulate : Mesh → Except KErr Mesh
  decimate : ℚ → Mesh → Except KErr Mesh
  computeNormals : Mesh → Except KErr Mesh

/-- The mesh portion of a kernel result. -/
def okPart (x : Except KErr Mesh) : Option Mesh :=
  match x with
  | Except.ok m => some m
  | Except.error _ => none

/-- Per-region refinement of meshpyvista7 (source lines 96-99):
smooth(n_iter=5), triangulate, decimate only when reduction > 0, then
compute_normals; an exception at any stage propagates. -/
def refineRegion (K : GeomKernels) (reduction : ℚ) (m : Mesh) : Except KErr Mesh :=
  match K.smooth 5 m with
  | Except.error e => Except.error e
  | Except.ok s =>
    match K.triangulate s with
    | Except.error e => Except.error e
    | Except.ok t =>
      match (if 0 < reduction then K.decimate reduction t else Except.ok t) with
      | Except.error e => Except.error e
      | Except.ok d => K.computeNormals d

/-- Single-region refinement of meshpyvista5 (source lines 80-89):
smooth(n_iter=10), triangulate, decimate unconditionally, compute_normals. -/
def refineSingle (K : GeomKernels) (reduction : ℚ) (m : Mesh) : Except KErr Mesh :=
  match K.smooth 10 m with
  | Except.error e => Except.error e
  | Except.ok s =>
    match K.triangulate s with
    | Except.error e => Except.error e
    | Except.ok t =>
      match K.decimate reduction t with
      | Except.error e => Except.error e
      | Except.ok d => K.computeNormals d

/-- The per-region loop of meshpyvista7 main (source lines 92-108): for each
region in order, refine its patch, register the mesh for rendering and, when
an output base is configured, record the exported file name; an uncaught
kernel exception terminates the loop, discarding the remaining regions.
Returns (rendered meshes, exported file names, exception if any). -/
def regionLoop (K : GeomKernels) (patch : ℚ → Mesh) (reduction : ℚ)
    (output : Option (List Char)) : Nat → List ℚ → List Mesh × List (List Char) × Option KErr
  | _, [] => ([], [], none)
  | idx, rid :: rest =>
    match refineRegion K reduction (patch rid) with
    | Except.error e => ([], [], some e)
    | Except.ok m =>
      let r2 := regionLoop K patch reduction output (idx + 1) rest
      (m :: r2.1,
       (match output with
        | none => r2.2.1
        | some base => objName base idx :: r2.2.1),
       r2.2.2)

/-! ### Region partitioning (np.unique and the RegionId window) -/

/-- Insert a value into a sorted duplicate-free list. -/
def insertUnique (x : ℚ) : List ℚ → List ℚ
  | [] => [x]
  | y :: ys => if x < y then x :: y :: ys else if x = y then y :: ys else y :: insertUnique x ys

/-- Model of np.unique: the distinct values of the RegionId array in
ascending order (source line 85). -/
def uniqueRegions (ids : List ℚ) : List ℚ := ids.foldr insertUnique []

/-- Surface elements selected by the threshold window
[rid - 0.1, rid + 0.1] on the RegionId field (source line 93). -/
def windowFilter (ids : List ℚ) (rid : ℚ) : List ℚ :=
  ids.filter (fun x => decide (rid - 1/10 ≤ x ∧ x ≤ rid + 1/10))

/-- The partitioning performed by meshpyvista7 main (source lines 84-93): one
patch per unique RegionId value, in ascending order, each selected by the
numeric window around its id. A surface element is modelled by its RegionId
field value. -/
def partitionSurface (ids : List ℚ) : List (ℚ × List ℚ) :=
  (uniqueRegions ids).map (fun rid => (rid, windowFilter ids rid))

/-! ### The pipeline driver (meshpyvista7 main) -/

/-- Observable outcome of one run of meshpyvista7 main. -/
structure DriverOut where
  labeledVolume : List Grid
  componentCount : Nat
  regions : List ℚ
  rendered : List Mesh
  exported : List (List Char)
  failure : Option KErr

/-- meshpyvista7 main after argument parsing (source lines 66-111): label the
volume, extract and partition the surface, loop over the regions. The
external surface extraction and mesh connectivity are abstracted: surfIds is
the RegionId array their composition produced, patch gives the submesh the
window threshold selects for a region id. No validation of the reduction
factor is performed anywhere. -/
def mainDriver (cc : Grid → Nat × Grid) (K : GeomKernels) (patch : ℚ → Mesh)
    (reduction : ℚ) (output : Option (List Char)) (volume : List Grid)
    (surfIds : List ℚ) : DriverOut :=
  let lab := label_connected_components cc volume
  let regions := uniqueRegions surfIds
  let r := regionLoop K patch reduction output 0 regions
  ⟨lab.1, lab.2, regions, r.1, r.2.1, r.2.2⟩

/-- Kernels whose smoothing stage throws exactly on the mesh with 7 triangles. -/
def failK : GeomKernels :=
  { smooth := fun _ m => if m.tris = 7 then Except.error KErr.smoothErr else Except.ok m,
    triangulate := fun m => Except.ok m,
    decimate := fun _ m => Except.ok m,
    computeNormals := fun m => Except.ok m }

/-- Patch lookup used in the C2 counterexample: region 0 is the bad patch. -/
def patchAB : ℚ → Mesh := fun rid => if rid = 0 then Mesh.mk 7 else Mesh.mk 4

/-- Contract-respecting kernels whose decimation discards every triangle. -/
def dropK : GeomKernels :=
  { smooth := fun _ m => Except.ok m,
    triangulate := fun m => Except.ok m,
    decimate := fun _ _ => Except.ok (Mesh.mk 0),
    computeNormals := fun m => Except.ok m }

/-- Contract-respecting kernels whose decimation halves the triangle count. -/
def halfK : GeomKernels :=
  { smooth := fun _ m => Except.ok m,
    triangulate := fun m => Except.ok m,
    decimate := fun _ m => Except.ok (Mesh.mk (m.tris / 2)),
    computeNormals := fun m => Except.ok m }

/-- Kernels for which every stage succeeds and returns its input unchanged. -/
def idK : GeomKernels :=
  { smooth := fun _ m => Except.ok m,
    triangulate := fun m => Except.ok m,
    decimate := fun _ m => Except.ok m,
    computeNormals := fun m => Except.ok m }


/-! ### Basic list access lemmas -/

theorem getD_map_eq {α β : Type} (f : α → β) (d : α) (l : List α) (n : Nat) :
    (l.map f).getD n (f d) = f (l.getD n d) := by
  induction l generalizing n with
  | nil => simp [List.getD]
  | cons a t ih =>
    cases n with
    | zero => simp [List.getD]
    | succ m =>
      show (t.map f).getD m (f d) = f (t.getD m d)
      exact ih m

theorem getD_eq_get {α : Type} (l : List α) (d : α) (i : Nat) (h : i < l.length) :
    l.getD i d = l.get ⟨i, h⟩ := by
  induction l generalizing i with
  | nil => simp at h
  | cons a t ih =>
    cases i with
    | zero => simp [List.getD]
    | succ m =>
      have hm : m < t.length := by simpa using h
      show t.getD m d = t.get ⟨m, hm⟩
      exact ih m hm

/-! ### Pointwise lemmas about the slice operations -/

theorem shiftVal_zero (c : Nat) : shiftVal c 0 = 0 := by simp [shiftVal]

theorem pix_shiftSlice (c : Nat) (g : Grid) (j l : Nat) :
    pix (shiftSlice c g) j l = shiftVal c (pix g j l) := by
  unfold pix shiftSlice
  have h1 : (g.map (fun row => row.map (shiftVal c))).getD j ([].map (shiftVal c))
      = (g.getD j []).map (shiftVal c) := getD_map_eq _ [] g j
  simp only [List.map_nil] at h1
  rw [h1]
  have h2 : ((g.getD j []).map (shiftVal c)).getD l (shiftVal c 0)
      = shiftVal c ((g.getD j []).getD l 0) := getD_map_eq _ 0 _ l
  rwa [shiftVal_zero] at h2

theorem castUint8_length (g : Grid) : (castUint8 g).length = g.length := by
  simp [castUint8]

theorem castUint8_getD (g : Grid) (j : Nat) :
    (castUint8 g).getD j [] = (g.getD j []).map (fun v => v % 256) := by
  have h1 := getD_map_eq (fun row : List Nat => row.map (fun v => v % 256)) [] g j
  simp only [List.map_nil] at h1
  exact h1

theorem castUint8_row_length (g : Grid) (j : Nat) :
    ((castUint8 g).getD j []).length = (g.getD j []).length := by
  rw [castUint8_getD, List.length_map]

theorem pix_castUint8 (g : Grid) (j l : Nat) :
    pix (castUint8 g) j l = pix g j l % 256 := by
  unfold pix
  rw [castUint8_getD]
  have h2 := getD_map_eq (fun v : Nat => v % 256) 0 (g.getD j []) l
  simpa using h2

/-! ### Membership lemmas -/

theorem gridMem_iff_pix {v : Nat} (hv : 0 < v) (g : Grid) :
    gridMem v g ↔ ∃ j, j < g.length ∧ ∃ l, l < (g.getD j []).length ∧ pix g j l = v := by
  constructor
  · rintro ⟨row, hrow, hvrow⟩
    rcases List.mem_iff_get.mp hrow with ⟨⟨j, hj⟩, rfl⟩
    rcases List.mem_iff_get.mp hvrow with ⟨⟨l, hl⟩, rfl⟩
    refine ⟨j, hj, l, ?_, ?_⟩
    · rw [getD_eq_get g [] j hj]; exact hl
    · unfold pix
      rw [getD_eq_get g [] j hj, getD_eq_get _ 0 l hl]
  · rintro ⟨j, hj, l, hl, hpix⟩
    unfold pix at hpix
    rw [getD_eq_get g [] j hj] at hpix hl
    rw [getD_eq_get _ 0 l hl] at hpix
    exact ⟨g.get ⟨j, hj⟩, List.get_mem g j hj, hpix ▸ List.get_mem _ l hl⟩

theorem gridMem_shift {v : Nat} (c : Nat) (hv : 0 < v) (g : Grid) :
    gridMem v (shiftSlice c g) ↔ ∃ x, gridMem x g ∧ 0 < x ∧ x + c = v := by
  unfold gridMem shiftSlice
  constructor
  · rintro ⟨row2, hrow2, hv2⟩
    rcases List.mem_map.mp hrow2 with ⟨row, hrow, rfl⟩
    rcases List.mem_map.mp hv2 with ⟨x, hx, hxv⟩
    unfold shiftVal at hxv
    by_cases hx0 : 0 < x
    · rw [if_pos hx0] at hxv
      exact ⟨x, ⟨row, hrow, hx⟩, hx0, hxv⟩
    · rw [if_neg hx0] at hxv
      omega
  · rintro ⟨x, ⟨row, hrow, hx⟩, hx0, rfl⟩
    refine ⟨row.map (shiftVal c), List.mem_map.mpr ⟨row, hrow, rfl⟩, ?_⟩
    have hsx : shiftVal c x = x + c := by unfold shiftVal; rw [if_pos hx0]
    rw [← hsx]
    exact List.mem_map_of_mem _ hx

theorem volMem_cons (v : Nat) (g : Grid) (vol : List Grid) :
    volMem v (g :: vol) ↔ gridMem v g ∨ volMem v vol := by
  unfold volMem
  constructor
  · rintro ⟨g2, hg2, hm⟩
    rcases List.mem_cons.mp hg2 with rfl | h
    · exact Or.inl hm
    · exact Or.inr ⟨g2, h, hm⟩
  · rintro (h | ⟨g2, hg2, hm⟩)
    · exact ⟨g, List.mem_cons_self _ _, h⟩
    · exact ⟨g2, List.mem_cons_of_mem _ hg2, hm⟩

theorem volMem_nil (v : Nat) : ¬ volMem v [] := by
  rintro ⟨g, hg, _⟩
  simp at hg

/-! ### Consequences of the cv2 contract -/

theorem contract_gridMem {img : Grid} {r : Nat × Grid} (h : CCContract img r)
    {x : Nat} (hx : 0 < x) : gridMem x r.2 ↔ x < r.1 := by
  obtain ⟨hlen, hrow, hnum, hpoint, hsurj⟩ := h
  constructor
  · intro hm
    rcases (gridMem_iff_pix hx r.2).mp hm with ⟨j, hj, l, hl, hpix⟩
    have hj2 : j < img.length := hlen ▸ hj
    have hl2 : l < (img.getD j []).length := by
      rw [← hrow j hj2]; exact hl
    have := (hpoint j hj2 l hl2).2
    omega
  · intro hlt
    exact hsurj x hlt hx

theorem contract_num_one {img : Grid} {r : Nat × Grid} (h : CCContract img r)
    (hz : ∀ j, j < img.length → ∀ l, l < (img.getD j []).length → pix img j l = 0) :
    r.1 = 1 := by
  obtain ⟨hlen, hrow, hnum, hpoint, hsurj⟩ := h
  by_contra hne
  have h2 : 2 ≤ r.1 := by omega
  have hm : gridMem 1 r.2 := hsurj 1 (by omega) (by omega)
  rcases (gridMem_iff_pix (by omega) r.2).mp hm with ⟨j, hj, l, hl, hpix⟩
  have hj2 : j < img.length := hlen ▸ hj
  have hl2 : l < (img.getD j []).length := by rw [← hrow j hj2]; exact hl
  have hiff := (hpoint j hj2 l hl2).1
  have := hiff.mpr (hz j hj2 l hl2)
  omega

theorem gridMem_shift_cc {cc : Grid → Nat × Grid} {s : Grid}
    (hs : CCContract (castUint8 s) (cc (castUint8 s))) {v : Nat} (hv : 0 < v) (c : Nat) :
    gridMem v (shiftSlice c (cc (castUint8 s)).2) ↔ c < v ∧ v ≤ c + sliceK cc s := by
  rw [gridMem_shift c hv]
  have hnum : 1 ≤ (cc (castUint8 s)).1 := hs.2.2.1
  have hk : sliceK cc s = (cc (castUint8 s)).1 - 1 := rfl
  constructor
  · rintro ⟨x, hmem, hx0, rfl⟩
    have := (contract_gridMem hs hx0).mp hmem
    omega
  · rintro ⟨h1, h2⟩
    refine ⟨v - c, (contract_gridMem hs (by omega)).mpr (by omega), by omega, by omega⟩

/-! ### Structure of the labeling loop -/

theorem labelLoop_length (cc : Grid → Nat × Grid) (c : Nat) (vs : List Grid) :
    (labelLoop cc c vs).1.length = vs.length := by
  induction vs generalizing c with
  | nil => rfl
  | cons s rest ih => simp [labelLoop, ih]

theorem labelLoop_snd (cc : Grid → Nat × Grid) (c : Nat) (vs : List Grid) :
    (labelLoop cc c vs).2 = c + totalK cc vs := by
  induction vs generalizing c with
  | nil => simp [labelLoop, totalK]
  | cons s rest ih =>
    show (labelLoop cc (c + ((cc (castUint8 s)).1 - 1)) rest).2 = _
    rw [ih]
    show c + sliceK cc s + totalK cc rest = c + totalK cc (s :: rest)
    show _ = c + (sliceK cc s + totalK cc rest)
    omega

theorem labelLoop_getD (cc : Grid → Nat × Grid) (vs : List Grid) (c i : Nat)
    (h : i < vs.length) :
    (labelLoop cc c vs).1.getD i []
      = shiftSlice (c + prefixK cc vs i) (cc (castUint8 (vs.getD i []))).2 := by
  induction vs generalizing c i with
  | nil => simp at h
  | cons s rest ih =>
    cases i with
    | zero =>
      show shiftSlice c (cc (castUint8 s)).2 = _
      simp [prefixK, List.getD]
    | succ m =>
      have hm : m < rest.length := by simpa using h
      have := ih (c + ((cc (castUint8 s)).1 - 1)) m hm
      show (labelLoop cc (c + ((cc (castUint8 s)).1 - 1)) rest).1.getD m [] = _
      rw [this]
      have h1 : c + ((cc (castUint8 s)).1 - 1) + prefixK cc rest m
          = c + prefixK cc (s :: rest) (m + 1) := by
        show _ = c + (sliceK cc s + prefixK cc rest m)
        show c + sliceK cc s + prefixK cc rest m = _
        omega
      rw [h1]
      rfl

theorem labelLoop_mem (cc : Grid → Nat × Grid) (vs : List Grid)
    (hcc : ∀ s ∈ vs, CCContract (castUint8 s) (cc (castUint8 s)))
    (c : Nat) {v : Nat} (hv : 0 < v) :
    volMem v (labelLoop cc c vs).1 ↔ c < v ∧ v ≤ c + totalK cc vs := by
  induction vs generalizing c with
  | nil =>
    show volMem v [] ↔ _
    rw [totalK]
    constructor
    · intro h; exact absurd h (volMem_nil v)
    · intro h; omega
  | cons s rest ih =>
    have hs := hcc s (List.mem_cons_self _ _)
    have hrest := fun t ht => hcc t (List.mem_cons_of_mem _ ht)
    show volMem v (shiftSlice c (cc (castUint8 s)).2
        :: (labelLoop cc (c + ((cc (castUint8 s)).1 - 1)) rest).1) ↔ _
    rw [volMem_cons, gridMem_shift_cc hs hv, ih hrest]
    have hk : (cc (castUint8 s)).1 - 1 = sliceK cc s := rfl
    rw [hk]
    show _ ↔ c < v ∧ v ≤ c + (sliceK cc s + totalK cc rest)
    omega

theorem count_eq_totalK (cc : Grid → Nat × Grid) (vol : List Grid) :
    (label_connected_components cc vol).2 = totalK cc vol := by
  show (labelLoop cc 1 vol).2 - 1 = _
  rw [labelLoop_snd]
  omega

theorem lcc_mem (cc : Grid → Nat × Grid) (vol : List Grid)
    (hcc : ∀ s ∈ vol, CCContract (castUint8 s) (cc (castUint8 s)))
    {v : Nat} (hv : 0 < v) :
    volMem v (label_connected_components cc vol).1
      ↔ 2 ≤ v ∧ v ≤ (label_connected_components cc vol).2 + 1 := by
  show volMem v (labelLoop cc 1 vol).1 ↔ _
  rw [labelLoop_mem cc vol hcc 1 hv, count_eq_totalK]
  omega

theorem prefixK_nil (cc : Grid → Nat × Grid) (i : Nat) : prefixK cc [] i = 0 := by
  cases i <;> rfl

theorem prefixK_zero (cc : Grid → Nat × Grid) (vs : List Grid) : prefixK cc vs 0 = 0 := by
  cases vs <;> rfl

theorem prefixK_succ (cc : Grid → Nat × Grid) (vs : List Grid) (i : Nat)
    (h : i < vs.length) :
    prefixK cc vs (i + 1) = prefixK cc vs i + sliceK cc (vs.getD i []) := by
  induction vs generalizing i with
  | nil => simp at h
  | cons s rest ih =>
    cases i with
    | zero =>
      show sliceK cc s + prefixK cc rest 0 = 0 + sliceK cc s
      rw [prefixK_zero]
      omega
    | succ m =>
      have hm : m < rest.length := by simpa using h
      show sliceK cc s + prefixK cc rest (m + 1)
        = sliceK cc s + prefixK cc rest m + sliceK cc (rest.getD m [])
      rw [ih m hm]
      omega

theorem prefixK_mono (cc : Grid → Nat × Grid) (vs : List Grid) {i j : Nat} (h : i ≤ j) :
    prefixK cc vs i ≤ prefixK cc vs j := by
  induction vs generalizing i j with
  | nil => rw [prefixK_nil, prefixK_nil]
  | cons s rest ih =>
    cases i with
    | zero =>
      show 0 ≤ _
      exact Nat.zero_le _
    | succ m =>
      cases j with
      | zero => omega
      | succ n =>
        show sliceK cc s + prefixK cc rest m ≤ sliceK cc s + prefixK cc rest n
        have := ih (i := m) (j := n) (by omega)
        omega

theorem lcc_slice_mem (cc : Grid → Nat × Grid) (vol : List Grid)
    (hcc : ∀ s ∈ vol, CCContract (castUint8 s) (cc (castUint8 s)))
    (i : Nat) (hi : i < vol.length) {v : Nat} (hv : 0 < v) :
    gridMem v ((label_connected_components cc vol).1.getD i [])
      ↔ 1 + prefixK cc vol i < v ∧ v ≤ 1 + prefixK cc vol (i + 1) := by
  have hmem : vol.getD i [] ∈ vol := by
    rw [getD_eq_get vol [] i hi]; exact List.get_mem vol i hi
  show gridMem v ((labelLoop cc 1 vol).1.getD i []) ↔ _
  rw [labelLoop_getD cc vol 1 i hi, gridMem_shift_cc (hcc _ hmem) hv,
    prefixK_succ cc vol i hi]
  omega

/-! ### Maximum of a labeled volume -/

theorem le_foldr_max (row : List Nat) (acc : Nat) : acc ≤ row.foldr max acc := by
  induction row with
  | nil => exact Nat.le_refl acc
  | cons a t ih => exact Nat.le_trans ih (Nat.le_max_right a _)

theorem mem_le_foldr_max (row : List Nat) (acc v : Nat) (h : v ∈ row) :
    v ≤ row.foldr max acc := by
  induction row with
  | nil => simp at h
  | cons a t ih =>
    rcases List.mem_cons.mp h with rfl | h2
    · exact Nat.le_max_left v _
    · exact Nat.le_trans (ih h2) (Nat.le_max_right a _)

theorem foldr_max_cases (row : List Nat) (acc : Nat) :
    row.foldr max acc = acc ∨ row.foldr max acc ∈ row := by
  induction row with
  | nil => exact Or.inl rfl
  | cons a t ih =>
    show max a (t.foldr max acc) = acc ∨ max a (t.foldr max acc) ∈ a :: t
    rcases max_choice a (t.foldr max acc) with h | h
    · rw [h]; exact Or.inr (List.mem_cons_self a t)
    · rw [h]
      rcases ih with h2 | h2
      · exact Or.inl h2
      · exact Or.inr (List.mem_cons_of_mem a h2)

theorem le_gridFold (g : Grid) (acc : Nat) :
    acc ≤ g.foldr (fun row acc2 => row.foldr max acc2) acc := by
  induction g with
  | nil => exact Nat.le_refl acc
  | cons row t ih => exact Nat.le_trans ih (le_foldr_max row _)

theorem gridMem_le_gridFold (g : Grid) (acc v : Nat) (h : gridMem v g) :
    v ≤ g.foldr (fun row acc2 => row.foldr max acc2) acc := by
  induction g generalizing acc with
  | nil => rcases h with ⟨row, hrow, _⟩; simp at hrow
  | cons row t ih =>
    show v ≤ row.foldr max (t.foldr _ acc)
    rcases h with ⟨row2, hrow2, hv⟩
    rcases List.mem_cons.mp hrow2 with rfl | h2
    · exact mem_le_foldr_max row2 _ v hv
    · exact Nat.le_trans (ih acc ⟨row2, h2, hv⟩) (le_foldr_max row _)

theorem gridFold_cases (g : Grid) (acc : Nat) :
    g.foldr (fun row acc2 => row.foldr max acc2) acc = acc
    ∨ gridMem (g.foldr (fun row acc2 => row.foldr max acc2) acc) g := by
  induction g generalizing acc with
  | nil => exact Or.inl rfl
  | cons row t ih =>
    show row.foldr max (t.foldr _ acc) = acc ∨ gridMem (row.foldr max (t.foldr _ acc)) (row :: t)
    rcases foldr_max_cases row (t.foldr _ acc) with h | h
    · rw [h]
      rcases ih acc with h2 | h2
      · exact Or.inl h2
      · rcases h2 with ⟨row2, hrow2, hv⟩
        exact Or.inr ⟨row2, List.mem_cons_of_mem row hrow2, hv⟩
    · exact Or.inr ⟨row, List.mem_cons_self row t, h⟩

theorem volMem_le_volMax (v : Nat) (vol : List Grid) (h : volMem v vol) :
    v ≤ volMax vol := by
  unfold volMax
  induction vol with
  | nil => exact absurd h (volMem_nil v)
  | cons g t ih =>
    show v ≤ g.foldr _ (t.foldr _ 0)
    rcases (volMem_cons v g t).mp h with h2 | h2
    · exact gridMem_le_gridFold g _ v h2
    · exact Nat.le_trans (ih h2) (le_gridFold g _)

theorem volMax_cases (vol : List Grid) : volMax vol = 0 ∨ volMem (volMax vol) vol := by
  unfold volMax
  induction vol with
  | nil => exact Or.inl rfl
  | cons g t ih =>
    show g.foldr _ (t.foldr _ 0) = 0 ∨ volMem (g.foldr _ (t.foldr _ 0)) (g :: t)
    rcases gridFold_cases g (t.foldr (fun g acc => g.foldr (fun row acc2 => row.foldr max acc2) acc) 0) with h | h
    · rw [h]
      rcases ih with h2 | h2
      · exact Or.inl h2
      · exact Or.inr ((volMem_cons _ g t).mpr (Or.inr h2))
    · exact Or.inr ((volMem_cons _ g t).mpr (Or.inl h))

/-! ### All-background volumes -/

theorem totalK_zero (cc : Grid → Nat × Grid) (vol : List Grid)
    (hcc : ∀ s ∈ vol, CCContract (castUint8 s) (cc (castUint8 s)))
    (hz : ∀ g ∈ vol, ∀ row ∈ g, ∀ v ∈ row, v % 256 = 0) :
    totalK cc vol = 0 := by
  induction vol with
  | nil => rfl
  | cons s rest ih =>
    have hs := hcc s (List.mem_cons_self _ _)
    have hallzero : ∀ j, j < (castUint8 s).length →
        ∀ l, l < ((castUint8 s).getD j []).length → pix (castUint8 s) j l = 0 := by
      intro j hj l hl
      rw [pix_castUint8]
      have hj2 : j < s.length := by rwa [castUint8_length] at hj
      have hl2 : l < (s.getD j []).length := by rwa [castUint8_row_length] at hl
      have hrowmem : s.getD j [] ∈ s := by
        rw [getD_eq_get s [] j hj2]; exact List.get_mem s j hj2
      have hvmem : (s.getD j []).getD l 0 ∈ s.getD j [] := by
        rw [getD_eq_get _ 0 l hl2]; exact List.get_mem _ l hl2
      exact hz s (List.mem_cons_self _ _) _ hrowmem _ hvmem
    have h1 : (cc (castUint8 s)).1 = 1 := contract_num_one hs hallzero
    have h2 : sliceK cc s = 0 := by unfold sliceK; omega
    show sliceK cc s + totalK cc rest = 0
    rw [h2, ih (fun t ht => hcc t (List.mem_cons_of_mem _ ht))
      (fun g hg => hz g (List.mem_cons_of_mem _ hg))]

theorem shiftVal_pos (c v : Nat) : 0 < shiftVal c v ↔ 0 < v := by
  unfold shiftVal; split <;> omega

/-! ### Claims about the labeling stage -/

/-- C1 (counterexample): on the single-voxel volume [[[1]]] the code returns
component count 1, yet the maximum label present is 2 and label 1 never
occurs, so the labels are not compacted from 1 and the count does not equal
the maximum label. The final conjunct records that the concrete cv2 model
satisfies the cv2 contract on this input. -/
theorem C1_counterexample :
    (label_connected_components connectedComponents [[[1]]]).2 = 1
    ∧ volMax (label_connected_components connectedComponents [[[1]]]).1 = 2
    ∧ gridMem 2 ((label_connected_components connectedComponents [[[1]]]).1.getD 0 [])
    ∧ ¬ gridMem 1 ((label_connected_components connectedComponents [[[1]]]).1.getD 0 [])
    ∧ CCContract (castUint8 [[1]]) (connectedComponents (castUint8 [[1]])) := by
  decide

/-- C1 (amended): each slice of the output is its local cv2 labeling with
every positive label offset by one plus the running total of labels assigned
to prior slices (so the first slice labels start at 2), and for a nonzero
component count the maximum label present equals the component count plus
one, not the component count itself. -/
theorem C1_amended (cc : Grid → Nat × Grid) (vol : List Grid)
    (hcc : ∀ s ∈ vol, CCContract (castUint8 s) (cc (castUint8 s))) :
    (∀ i, i < vol.length →
      (label_connected_components cc vol).1.getD i []
        = shiftSlice (1 + prefixK cc vol i) (cc (castUint8 (vol.getD i []))).2)
    ∧ (0 < (label_connected_components cc vol).2 →
      volMax (label_connected_components cc vol).1
        = (label_connected_components cc vol).2 + 1) := by
  constructor
  · intro i hi
    show (labelLoop cc 1 vol).1.getD i [] = _
    exact labelLoop_getD cc vol 1 i hi
  · intro hpos
    have hmem : volMem ((label_connected_components cc vol).2 + 1)
        (label_connected_components cc vol).1 :=
      (lcc_mem cc vol hcc (by omega)).mpr ⟨by omega, Nat.le_refl _⟩
    have hlow := volMem_le_volMax _ _ hmem
    rcases volMax_cases (label_connected_components cc vol).1 with h0 | hm
    · omega
    · by_cases hz : volMax (label_connected_components cc vol).1 = 0
      · omega
      · have := (lcc_mem cc vol hcc (by omega)).mp hm
        omega

/-- C1 (witness for the amended claim): instantiated on [[[1]]], the output
slice equals the shifted local labeling and the maximum label is count + 1. -/
theorem C1_witness :
    (label_connected_components connectedComponents [[[1]]]).1.getD 0 []
      = shiftSlice (1 + prefixK connectedComponents [[[1]]] 0)
          (connectedComponents (castUint8 ([[[1]]].getD 0 []))).2
    ∧ volMax (label_connected_components connectedComponents [[[1]]]).1
      = (label_connected_components connectedComponents [[[1]]]).2 + 1 :=
  ⟨(C1_amended connectedComponents [[[1]]] (by decide)).1 0 (by decide),
   (C1_amended connectedComponents [[[1]]] (by decide)).2 (by decide)⟩

/-- C6: a positive label occurring in slice i of the labeled volume never
occurs in a different slice j, and slice i of the output is computed from
slice i of the input alone (no connectivity across the z-axis). -/
theorem C6_labels_unique_across_slices (cc : Grid → Nat × Grid) (vol : List Grid)
    (hcc : ∀ s ∈ vol, CCContract (castUint8 s) (cc (castUint8 s)))
    (i j v : Nat) (hi : i < vol.length) (hj : j < vol.length) (hij : i ≠ j) (hv : 0 < v)
    (hmem : gridMem v ((label_connected_components cc vol).1.getD i [])) :
    ¬ gridMem v ((label_connected_components cc vol).1.getD j [])
    ∧ (label_connected_components cc vol).1.getD i []
        = shiftSlice (1 + prefixK cc vol i) (cc (castUint8 (vol.getD i []))).2 := by
  constructor
  · intro hmem2
    have h1 := (lcc_slice_mem cc vol hcc i hi hv).mp hmem
    have h2 := (lcc_slice_mem cc vol hcc j hj hv).mp hmem2
    rcases Nat.lt_or_ge i j with hlt | hge
    · have h3 : prefixK cc vol (i + 1) ≤ prefixK cc vol j := prefixK_mono cc vol hlt
      omega
    · have hji : j < i := by omega
      have h3 : prefixK cc vol (j + 1) ≤ prefixK cc vol i := prefixK_mono cc vol hji
      omega
  · show (labelLoop cc 1 vol).1.getD i [] = _
    exact labelLoop_getD cc vol 1 i hi

/-- C6 (witness): two stacked single-voxel slices receive the distinct labels
2 and 3; label 2 of slice 0 does not occur in slice 1. -/
theorem C6_witness :
    ¬ gridMem 2 ((label_connected_components connectedComponents [[[1]], [[1]]]).1.getD 1 [])
    ∧ (label_connected_components connectedComponents [[[1]], [[1]]]).1.getD 0 []
        = shiftSlice (1 + prefixK connectedComponents [[[1]], [[1]]] 0)
            (connectedComponents (castUint8 ([[[1]], [[1]]].getD 0 []))).2 :=
  C6_labels_unique_across_slices connectedComponents [[[1]], [[1]]] (by decide)
    0 1 2 (by decide) (by decide) (by decide) (by decide) (by decide)

/-- C9: for a volume with positive component count, the positive values
occurring in the labeled volume are exactly the contiguous range from 2 to
componentCount + 1, and the smallest label 2 is attained. -/
theorem C9_label_range (cc : Grid → Nat × Grid) (vol : List Grid)
    (hcc : ∀ s ∈ vol, CCContract (castUint8 s) (cc (castUint8 s)))
    (hpos : 0 < (label_connected_components cc vol).2) (v : Nat) (hv : 0 < v) :
    (volMem v (label_connected_components cc vol).1
      ↔ 2 ≤ v ∧ v ≤ (label_connected_components cc vol).2 + 1)
    ∧ volMem 2 (label_connected_components cc vol).1 := by
  refine ⟨lcc_mem cc vol hcc hv, ?_⟩
  exact (lcc_mem cc vol hcc (by omega)).mpr ⟨Nat.le_refl 2, by omega⟩

/-- C9 (witness): the two-slice volume [[[1]], [[0, 1]]] has component count
2 and label 3 = count + 1 occurs in the output. -/
theorem C9_witness :
    volMem 3 (label_connected_components connectedComponents [[[1]], [[0, 1]]]).1
    ∧ (label_connected_components connectedComponents [[[1]], [[0, 1]]]).2 = 2 :=
  ⟨((C9_label_range connectedComponents [[[1]], [[0, 1]]] (by decide) (by decide)
      3 (by decide)).1).mpr (by decide), by decide⟩

/-- C10: a voxel receives a positive label exactly when its value reduced
modulo 256 (the uint8 cast) is nonzero; consequently a volume all of whose
values are multiples of 256 is labeled entirely background with component
count 0. -/
theorem C10_uint8_mod256 (cc : Grid → Nat × Grid) (vol : List Grid)
    (hcc : ∀ s ∈ vol, CCContract (castUint8 s) (cc (castUint8 s)))
    (i j l : Nat) (hi : i < vol.length)
    (hj : j < (vol.getD i []).length) (hl : l < ((vol.getD i []).getD j []).length) :
    (0 < pix ((label_connected_components cc vol).1.getD i []) j l
      ↔ pix (vol.getD i []) j l % 256 ≠ 0)
    ∧ ((∀ g ∈ vol, ∀ row ∈ g, ∀ v ∈ row, v % 256 = 0) →
        (label_connected_components cc vol).2 = 0) := by
  constructor
  · have hmem : vol.getD i [] ∈ vol := by
      rw [getD_eq_get vol [] i hi]; exact List.get_mem vol i hi
    have hs := hcc _ hmem
    have hout : (label_connected_components cc vol).1.getD i []
        = shiftSlice (1 + prefixK cc vol i) (cc (castUint8 (vol.getD i []))).2 := by
      show (labelLoop cc 1 vol).1.getD i [] = _
      exact labelLoop_getD cc vol 1 i hi
    rw [hout, pix_shiftSlice, shiftVal_pos]
    have hj2 : j < (castUint8 (vol.getD i [])).length := by
      rwa [castUint8_length]
    have hl2 : l < ((castUint8 (vol.getD i [])).getD j []).length := by
      rwa [castUint8_row_length]
    have hpoint := (hs.2.2.2.1 j hj2 l hl2).1
    rw [pix_castUint8] at hpoint
    omega
  · intro hz
    rw [count_eq_totalK]
    exact totalK_zero cc vol hcc hz

/-- C10 (witness): the voxel with value 256 gets no label (256 mod 256 = 0),
and the volume [[[256, 512]]] of nonzero multiples of 256 has component
count 0. -/
theorem C10_witness :
    (0 < pix ((label_connected_components connectedComponents [[[1, 256]]]).1.getD 0 []) 0 1
      ↔ pix ([[[1, 256]]].getD 0 []) 0 1 % 256 ≠ 0)
    ∧ (label_connected_components connectedComponents [[[256, 512]]]).2 = 0 :=
  ⟨(C10_uint8_mod256 connectedComponents [[[1, 256]]] (by decide) 0 0 1
      (by decide) (by decide) (by decide)).1,
   (C10_uint8_mod256 connectedComponents [[[256, 512]]] (by decide) 0 0 0
      (by decide) (by decide) (by decide)).2 (by decide)⟩

/-! ### Properties of the export naming -/

theorem strReplaceF_nil (pat rep : List Char) (fuel : Nat) :
    strReplaceF pat rep fuel [] = [] := by
  cases fuel <;> rfl

theorem strReplaceF_self (pat rep : List Char) (fuel : Nat) (hpat : pat ≠ [])
    (hfuel : pat.length ≤ fuel) :
    strReplaceF pat rep fuel pat = rep := by
  cases pat with
  | nil => exact absurd rfl hpat
  | cons c s =>
    cases fuel with
    | zero => simp at hfuel
    | succ f =>
      show (if (c :: s) ≠ [] ∧ (c :: s).take (c :: s).length = (c :: s) then
          rep ++ strReplaceF (c :: s) rep f ((c :: s).drop (c :: s).length)
        else c :: strReplaceF (c :: s) rep f s) = rep
      rw [if_pos ⟨hpat, List.take_length (c :: s)⟩, List.drop_length, strReplaceF_nil,
        List.append_nil]

theorem strReplaceF_append (pat rep stem : List Char) (fuel : Nat) (hpat : pat ≠ [])
    (hfuel : (stem ++ pat).length ≤ fuel)
    (h : ∀ i, i < stem.length → ¬ patAt pat (stem ++ pat) i) :
    strReplaceF pat rep fuel (stem ++ pat) = stem ++ rep := by
  induction stem generalizing fuel with
  | nil =>
    rw [List.nil_append] at hfuel
    rw [List.nil_append, List.nil_append]
    exact strReplaceF_self pat rep fuel hpat hfuel
  | cons c st ih =>
    cases fuel with
    | zero =>
      exfalso
      have hlen : 0 < ((c :: st) ++ pat).length := by simp
      omega
    | succ f =>
      have hf : (st ++ pat).length ≤ f := by
        simp only [List.cons_append, List.length_cons] at hfuel
        omega
      have hh : ∀ i, i < st.length → ¬ patAt pat (st ++ pat) i := by
        intro i hi hc
        exact h (i + 1) (by simp only [List.length_cons]; omega) hc
      have hneg : ¬ (pat ≠ [] ∧ (c :: (st ++ pat)).take pat.length = pat) := by
        rintro ⟨_, h2⟩
        exact h 0 (by simp only [List.length_cons]; omega) h2
      show (if pat ≠ [] ∧ (c :: (st ++ pat)).take pat.length = pat then
          rep ++ strReplaceF pat rep f ((c :: (st ++ pat)).drop pat.length)
        else c :: strReplaceF pat rep f (st ++ pat)) = c :: (st ++ rep)
      rw [if_neg hneg, ih f hf hh]

theorem strReplace_append (pat rep stem : List Char) (hpat : pat ≠ [])
    (h : ∀ i, i < stem.length → ¬ patAt pat (stem ++ pat) i) :
    strReplace pat rep (stem ++ pat) = stem ++ rep :=
  strReplaceF_append pat rep stem (stem ++ pat).length hpat (Nat.le_refl _) h

/-- C5 (counterexample): for the requested base path m.stl the code writes
region 0 to m.stl itself: str.replace finds no ".obj" occurrence and inserts
nothing, so the produced name is not the claimed insertion of _0 before the
extension. -/
theorem C5_counterexample :
    objName (String.toList "m.stl") 0 = String.toList "m.stl"
    ∧ objName (String.toList "m.stl") 0 ≠ String.toList "m_0.stl" := by
  constructor
  · decide
  · decide

/-- C5 (amended): the produced file name replaces every occurrence of the
substring .obj in the base path by _idx.obj; when the base path ends in .obj
and contains no earlier occurrence of .obj, this inserts _idx immediately
before the extension, and with an output base listing regions in partition
order the loop exports exactly the names indexed 0, 1, ... in order. -/
theorem C5_amended (stem : List Char) (idx : Nat)
    (h : ∀ i, i < stem.length →
      ¬ patAt (String.toList ".obj") (stem ++ String.toList ".obj") i) :
    objName (stem ++ String.toList ".obj") idx
      = stem ++ String.toList ("_" ++ toString idx ++ ".obj") :=
  strReplace_append _ _ stem (by decide) h

/-- C5 (witness): for base shape.obj the names of regions 0, 1 and 2 are
shape_0.obj, shape_1.obj and shape_2.obj. -/
theorem C5_witness :
    objName (String.toList "shape.obj") 0 = String.toList "shape_0.obj"
    ∧ objName (String.toList "shape.obj") 1 = String.toList "shape_1.obj"
    ∧ objName (String.toList "shape.obj") 2 = String.toList "shape_2.obj" :=
  ⟨C5_amended (String.toList "shape") 0 (by decide),
   C5_amended (String.toList "shape") 1 (by decide),
   C5_amended (String.toList "shape") 2 (by decide)⟩

/-! ### Properties of the partitioning -/

theorem insertUnique_mem (x a : ℚ) (l : List ℚ) :
    a ∈ insertUnique x l ↔ a = x ∨ a ∈ l := by
  induction l with
  | nil => simp [insertUnique]
  | cons y ys ih =>
    unfold insertUnique
    by_cases h1 : x < y
    · rw [if_pos h1]
      simp [List.mem_cons]
    · rw [if_neg h1]
      by_cases h2 : x = y
      · rw [if_pos h2]
        subst h2
        simp only [List.mem_cons]
        tauto
      · rw [if_neg h2]
        simp only [List.mem_cons, ih]
        tauto

theorem insertUnique_pairwise (x : ℚ) (l : List ℚ) (h : l.Pairwise (· < ·)) :
    (insertUnique x l).Pairwise (· < ·) := by
  induction l with
  | nil => simp [insertUnique]
  | cons y ys ih =>
    rcases List.pairwise_cons.mp h with ⟨hy, hys⟩
    unfold insertUnique
    by_cases h1 : x < y
    · rw [if_pos h1]
      refine List.pairwise_cons.mpr ⟨?_, h⟩
      intro z hz
      rcases List.mem_cons.mp hz with rfl | hzys
      · exact h1
      · exact lt_trans h1 (hy z hzys)
    · rw [if_neg h1]
      by_cases h2 : x = y
      · rw [if_pos h2]; exact h
      · rw [if_neg h2]
        have hyx : y < x := lt_of_le_of_ne (not_lt.mp h1) (Ne.symm h2)
        refine List.pairwise_cons.mpr ⟨?_, ih hys⟩
        intro z hz
        rcases (insertUnique_mem x z ys).mp hz with rfl | hzys
        · exact hyx
        · exact hy z hzys

theorem uniqueRegions_mem (ids : List ℚ) (a : ℚ) :
    a ∈ uniqueRegions ids ↔ a ∈ ids := by
  induction ids with
  | nil => simp [uniqueRegions]
  | cons x xs ih =>
    show a ∈ insertUnique x (uniqueRegions xs) ↔ _
    rw [insertUnique_mem]
    simp only [List.mem_cons, ih]

theorem uniqueRegions_pairwise (ids : List ℚ) :
    (uniqueRegions ids).Pairwise (· < ·) := by
  induction ids with
  | nil => exact List.Pairwise.nil
  | cons x xs ih => exact insertUnique_pairwise x _ ih

/-- C7: partitioning yields exactly one patch per unique RegionId value, the
patch ids are in strictly ascending order, they are exactly the values
occurring on the surface, each patch is the window selection
[id - 0.1, id + 0.1] on the RegionId field, and an empty surface yields zero
patches. -/
theorem C7_partition (ids : List ℚ) :
    (partitionSurface ids).map Prod.fst = uniqueRegions ids
    ∧ ((partitionSurface ids).map Prod.fst).Pairwise (· < ·)
    ∧ (∀ x : ℚ, x ∈ (partitionSurface ids).map Prod.fst ↔ x ∈ ids)
    ∧ (∀ pr ∈ partitionSurface ids, pr.2 = windowFilter ids pr.1)
    ∧ (ids = [] → partitionSurface ids = []) := by
  have hfst : (partitionSurface ids).map Prod.fst = uniqueRegions ids := by
    unfold partitionSurface
    rw [List.map_map]
    exact List.map_id _
  refine ⟨hfst, ?_, ?_, ?_, ?_⟩
  · rw [hfst]; exact uniqueRegions_pairwise ids
  · intro x; rw [hfst]; exact uniqueRegions_mem ids x
  · intro pr hpr
    rcases List.mem_map.mp hpr with ⟨rid, _, rfl⟩
    rfl
  · rintro rfl
    rfl

/-- C7 (witness): on the surface with RegionId values [2, 0, 2] the patch
ids are the sorted distinct values and id 2 is among them. -/
theorem C7_witness :
    (partitionSurface [2, 0, 2]).map Prod.fst = uniqueRegions [2, 0, 2]
    ∧ ((2 : ℚ) ∈ (partitionSurface [2, 0, 2]).map Prod.fst ↔ (2 : ℚ) ∈ ([2, 0, 2] : List ℚ))
    ∧ (partitionSurface ([] : List ℚ) = []) :=
  ⟨(C7_partition [2, 0, 2]).1, (C7_partition [2, 0, 2]).2.2.1 2,
   (C7_partition []).2.2.2.2 rfl⟩

/-! ### Equations of the region loop -/

theorem regionLoop_nil (K : GeomKernels) (patch : ℚ → Mesh) (r : ℚ)
    (out : Option (List Char)) (idx : Nat) :
    regionLoop K patch r out idx [] = ([], [], none) := rfl

theorem regionLoop_cons_err (K : GeomKernels) (patch : ℚ → Mesh) (r : ℚ)
    (out : Option (List Char)) (idx : Nat) (q : ℚ) (rest : List ℚ) (e : KErr)
    (hq : refineRegion K r (patch q) = Except.error e) :
    regionLoop K patch r out idx (q :: rest) = ([], [], some e) := by
  simp only [regionLoop]
  rw [hq]

theorem regionLoop_cons_ok (K : GeomKernels) (patch : ℚ → Mesh) (r : ℚ)
    (out : Option (List Char)) (idx : Nat) (q : ℚ) (rest : List ℚ) (m : Mesh)
    (hq : refineRegion K r (patch q) = Except.ok m) :
    regionLoop K patch r out idx (q :: rest)
      = (m :: (regionLoop K patch r out (idx + 1) rest).1,
         (match out with
          | none => (regionLoop K patch r out (idx + 1) rest).2.1
          | some base => objName base idx :: (regionLoop K patch r out (idx + 1) rest).2.1),
         (regionLoop K patch r out (idx + 1) rest).2.2) := by
  simp only [regionLoop]
  rw [hq]

/-! ### C2: failure propagation in the region loop -/

/-- C2 (counterexample): with regions [0, 1] where refining region 0 throws
in the smoothing kernel, the loop terminates immediately with the error:
nothing is rendered and nothing is exported, although region 1 on its own
refines successfully — the failure is not confined to the failing region and
the remaining region is not processed. -/
theorem C2_counterexample :
    regionLoop failK patchAB 1 (some (String.toList "a.obj")) 0 [0, 1]
      = ([], [], some KErr.smoothErr)
    ∧ okPart (refineRegion failK 1 (patchAB 1)) = some (Mesh.mk 4) := by
  exact ⟨rfl, rfl⟩

/-- C2 (amended): an uncaught geometry-kernel exception while refining a
region halts the whole run: the regions before the failing one are rendered
and exported as usual, the failing region and every later region are dropped,
and the loop reports the exception. -/
theorem C2_amended (K : GeomKernels) (patch : ℚ → Mesh) (r : ℚ) (base : List Char)
    (idx : Nat) (pre : List ℚ) (p : ℚ) (post : List ℚ) (e : KErr)
    (hpre : ∀ q ∈ pre, ∃ m, refineRegion K r (patch q) = Except.ok m)
    (hp : refineRegion K r (patch p) = Except.error e) :
    (regionLoop K patch r (some base) idx (pre ++ p :: post)).2.2 = some e
    ∧ (regionLoop K patch r (some base) idx (pre ++ p :: post)).2.1
        = (List.range' idx pre.length).map (objName base)
    ∧ (regionLoop K patch r (some base) idx (pre ++ p :: post)).1
        = pre.filterMap (fun q => okPart (refineRegion K r (patch q))) := by
  induction pre generalizing idx with
  | nil =>
    rw [List.nil_append, regionLoop_cons_err K patch r (some base) idx p post e hp]
    exact ⟨rfl, rfl, rfl⟩
  | cons q rest ih =>
    rcases hpre q (List.mem_cons_self _ _) with ⟨m, hm⟩
    have ih2 := ih (idx + 1) (fun t ht => hpre t (List.mem_cons_of_mem _ ht))
    rw [List.cons_append,
      regionLoop_cons_ok K patch r (some base) idx q (rest ++ p :: post) m hm]
    refine ⟨ih2.1, ?_, ?_⟩
    · show objName base idx
          :: (regionLoop K patch r (some base) (idx + 1) (rest ++ p :: post)).2.1 = _
      rw [ih2.2.1, List.length_cons, List.range'_succ]
      rfl
    · show m :: (regionLoop K patch r (some base) (idx + 1) (rest ++ p :: post)).1 = _
      rw [ih2.2.2, List.filterMap_cons]
      have hok : okPart (refineRegion K r (patch q)) = some m := by rw [hm]; rfl
      rw [hok]

/-- C2 (witness): regions [1, 0] with region 0 failing: region 1 is exported
as a_0.obj and rendered, then the exception ends the run. -/
theorem C2_witness :
    (regionLoop failK patchAB 1 (some (String.toList "a.obj")) 0 [1, 0]).2.2
      = some KErr.smoothErr
    ∧ (regionLoop failK patchAB 1 (some (String.toList "a.obj")) 0 [1, 0]).2.1
        = (List.range' 0 1).map (objName (String.toList "a.obj"))
    ∧ (regionLoop failK patchAB 1 (some (String.toList "a.obj")) 0 [1, 0]).1
        = [1].filterMap (fun q => okPart (refineRegion failK 1 (patchAB q))) :=
  C2_amended failK patchAB 1 (String.toList "a.obj") 0 [1] 0 [] KErr.smoothErr
    (by
      intro q hq
      rw [List.mem_singleton] at hq
      subst hq
      exact ⟨Mesh.mk 4, rfl⟩) rfl

/-! ### C3: the decimation stage in the two refinement pipelines -/

/-- C3 (counterexample): with reductionFactor 0 the single-region pipeline of
meshpyvista5 still invokes the decimation kernel: with a kernel that discards
all triangles the refined mesh has 0 triangles while the triangulated patch
has 5, so the stage is not skipped and the count is not preserved; the
multi-region pipeline of meshpyvista7 does skip the stage and preserves the
count. -/
theorem C3_counterexample :
    okPart (refineSingle dropK 0 (Mesh.mk 5)) = some (Mesh.mk 0)
    ∧ okPart (refineRegion dropK 0 (Mesh.mk 5)) = some (Mesh.mk 5)
    ∧ okPart (dropK.triangulate (Mesh.mk 5)) = some (Mesh.mk 5)
    ∧ ¬ ((0 : ℚ) > 0)
    ∧ (0 : Nat) ≠ 5 :=
  ⟨rfl, rfl, rfl, by decide, by decide⟩

/-- C3 (amended): in meshpyvista7 the decimation stage runs only for
reduction > 0 — for reduction ≤ 0 the refined mesh is the normals stage
applied directly to the triangulated patch and the triangle count is
preserved, while for reduction > 0 the count is at most the triangulated
count; in meshpyvista5 the decimation kernel is invoked for every reduction
value, including 0, so count preservation there is up to the kernel, and the
count never exceeds the triangulated count. -/
theorem C3_amended (K : GeomKernels) (r : ℚ) (m s t s2 t2 d f f2 : Mesh)
    (hdec : ∀ r2 m1 m2, K.decimate r2 m1 = Except.ok m2 → m2.tris ≤ m1.tris)
    (hnorm : ∀ m1 m2, K.computeNormals m1 = Except.ok m2 → m2.tris = m1.tris)
    (hs : K.smooth 5 m = Except.ok s) (ht : K.triangulate s = Except.ok t)
    (hs2 : K.smooth 10 m = Except.ok s2) (ht2 : K.triangulate s2 = Except.ok t2)
    (hd : K.decimate r t2 = Except.ok d)
    (hf : refineRegion K r m = Except.ok f) (hf2 : refineSingle K r m = Except.ok f2) :
    (¬ 0 < r → refineRegion K r m = K.computeNormals t)
    ∧ (¬ 0 < r → f.tris = t.tris)
    ∧ (0 < r → f.tris ≤ t.tris)
    ∧ refineSingle K r m = K.computeNormals d
    ∧ f2.tris ≤ t2.tris := by
  have hsing : refineSingle K r m = K.computeNormals d := by
    simp only [refineSingle, hs2, ht2, hd]
  refine ⟨?_, ?_, ?_, hsing, ?_⟩
  · intro hneg
    simp only [refineRegion, hs, ht, if_neg hneg]
  · intro hneg
    have e1 : refineRegion K r m = K.computeNormals t := by
      simp only [refineRegion, hs, ht, if_neg hneg]
    rw [e1] at hf
    exact hnorm t f hf
  · intro hpos
    have e2 : refineRegion K r m
        = (match K.decimate r t with
           | Except.error e => Except.error e
           | Except.ok d2 => K.computeNormals d2) := by
      simp only [refineRegion, hs, ht, if_pos hpos]
    rw [e2] at hf
    cases hdc : K.decimate r t with
    | error e =>
      rw [hdc] at hf
      exact absurd hf (fun hcontra => Except.noConfusion hcontra)
    | ok d2 =>
      rw [hdc] at hf
      have h1 := hnorm d2 f hf
      have h2 := hdec r t d2 hdc
      omega
  · rw [hsing] at hf2
    have h1 := hnorm d f2 hf2
    have h2 := hdec r t2 d hd
    omega

/-- C3 (witness): with halving decimation and reduction 0 the multi-region
pipeline keeps all 10 triangles while the single-region pipeline decimates
down to 5. -/
theorem C3_witness :
    (¬ (0 : ℚ) < 0 → refineRegion halfK 0 (Mesh.mk 10) = halfK.computeNormals (Mesh.mk 10))
    ∧ (¬ (0 : ℚ) < 0 → (Mesh.mk 10).tris = (Mesh.mk 10).tris)
    ∧ ((0 : ℚ) < 0 → (Mesh.mk 10).tris ≤ (Mesh.mk 10).tris)
    ∧ refineSingle halfK 0 (Mesh.mk 10) = halfK.computeNormals (Mesh.mk 5)
    ∧ (Mesh.mk 5).tris ≤ (Mesh.mk 10).tris :=
  C3_amended halfK 0 (Mesh.mk 10) (Mesh.mk 10) (Mesh.mk 10) (Mesh.mk 10) (Mesh.mk 10)
    (Mesh.mk 5) (Mesh.mk 10) (Mesh.mk 5)
    (by
      intro r2 m1 m2 h12
      injection h12 with h13
      subst h13
      exact Nat.div_le_self _ _)
    (by
      intro m1 m2 h12
      injection h12 with h13
      subst h13
      rfl)
    rfl rfl rfl rfl rfl rfl rfl

/-! ### C4: absence of configuration-time validation of the reduction factor -/

/-- C4 (counterexample): with reduction factor 2, outside [0, 1], the run is
not rejected: labeling is performed (component count 1), the region is
refined and exported, and no failure is reported. -/
theorem C4_counterexample :
    ¬ (0 ≤ (2 : ℚ) ∧ (2 : ℚ) ≤ 1)
    ∧ (mainDriver connectedComponents idK (fun _ => Mesh.mk 6) 2
        (some (String.toList "a.obj")) [[[1]]] [0]).componentCount = 1
    ∧ (mainDriver connectedComponents idK (fun _ => Mesh.mk 6) 2
        (some (String.toList "a.obj")) [[[1]]] [0]).exported = [String.toList "a_0.obj"]
    ∧ (mainDriver connectedComponents idK (fun _ => Mesh.mk 6) 2
        (some (String.toList "a.obj")) [[[1]]] [0]).failure = none := by
  exact ⟨by decide, by decide, by decide, by decide⟩

/-- C4 (amended): the reduction factor is never validated: for a factor
outside [0, 1] the run still performs labeling and region partitioning, with
results identical to a run with any other factor, and proceeds to the
per-region loop. -/
theorem C4_amended (cc : Grid → Nat × Grid) (K : GeomKernels) (patch : ℚ → Mesh)
    (r r2 : ℚ) (output : Option (List Char)) (volume : List Grid) (surfIds : List ℚ)
    (_hr : ¬ (0 ≤ r ∧ r ≤ 1)) :
    (mainDriver cc K patch r output volume surfIds).labeledVolume
      = (label_connected_components cc volume).1
    ∧ (mainDriver cc K patch r output volume surfIds).componentCount
      = (label_connected_components cc volume).2
    ∧ (mainDriver cc K patch r output volume surfIds).regions = uniqueRegions surfIds
    ∧ (mainDriver cc K patch r output volume surfIds).regions
      = (mainDriver cc K patch r2 output volume surfIds).regions
    ∧ (mainDriver cc K patch r output volume surfIds).componentCount
      = (mainDriver cc K patch r2 output volume surfIds).componentCount :=
  ⟨rfl, rfl, rfl, rfl, rfl⟩

/-- C4 (witness): instantiated with the out-of-range factor 2 against the
in-range factor 1 on a one-voxel volume. -/
theorem C4_witness :
    (mainDriver connectedComponents idK (fun _ => Mesh.mk 6) 2
        (some (String.toList "a.obj")) [[[1]]] [0]).labeledVolume
      = (label_connected_components connectedComponents [[[1]]]).1
    ∧ (mainDriver connectedComponents idK (fun _ => Mesh.mk 6) 2
        (some (String.toList "a.obj")) [[[1]]] [0]).componentCount
      = (label_connected_components connectedComponents [[[1]]]).2
    ∧ (mainDriver connectedComponents idK (fun _ => Mesh.mk 6) 2
        (some (String.toList "a.obj")) [[[1]]] [0]).regions = uniqueRegions [0]
    ∧ (mainDriver connectedComponents idK (fun _ => Mesh.mk 6) 2
        (some (String.toList "a.obj")) [[[1]]] [0]).regions
      = (mainDriver connectedComponents idK (fun _ => Mesh.mk 6) 1
          (some (String.toList "a.obj")) [[[1]]] [0]).regions
    ∧ (mainDriver connectedComponents idK (fun _ => Mesh.mk 6) 2
        (some (String.toList "a.obj")) [[[1]]] [0]).componentCount
      = (mainDriver connectedComponents idK (fun _ => Mesh.mk 6) 1
          (some (String.toList "a.obj")) [[[1]]] [0]).componentCount :=
  C4_amended connectedComponents idK (fun _ => Mesh.mk 6) 2 1
    (some (String.toList "a.obj")) [[[1]]] [0] (by decide)

/-! ### C8: all-background volumes -/

/-- C8: for a volume with no foreground voxel the component count is 0 and,
the extracted surface being empty (the external extractor yields no surface
elements for an empty voxel selection, so the RegionId array is empty), zero
regions are produced, nothing is rendered, zero files are exported and no
failure occurs. -/
theorem C8_empty_volume (cc : Grid → Nat × Grid) (K : GeomKernels) (patch : ℚ → Mesh)
    (r : ℚ) (output : Option (List Char)) (volume : List Grid) (surfIds : List ℚ)
    (hcc : ∀ s ∈ volume, CCContract (castUint8 s) (cc (castUint8 s)))
    (hvol : ∀ g ∈ volume, ∀ row ∈ g, ∀ v ∈ row, v = 0)
    (hids : surfIds = []) :
    (mainDriver cc K patch r output volume surfIds).componentCount = 0
    ∧ (mainDriver cc K patch r output volume surfIds).regions = []
    ∧ (mainDriver cc K patch r output volume surfIds).rendered = []
    ∧ (mainDriver cc K patch r output volume surfIds).exported = []
    ∧ (mainDriver cc K patch r output volume surfIds).failure = none := by
  subst hids
  refine ⟨?_, rfl, rfl, rfl, rfl⟩
  show (label_connected_components cc volume).2 = 0
  rw [count_eq_totalK]
  exact totalK_zero cc volume hcc
    (fun g hg row hrow v hv => by rw [hvol g hg row hrow v hv])

/-- C8 (witness): a two-slice all-zero volume yields count 0, no regions, no
rendering, no exports and no failure. -/
theorem C8_witness :
    (mainDriver connectedComponents idK (fun _ => Mesh.mk 3) 1
        (some (String.toList "a.obj")) [[[0]], [[0, 0]]] []).componentCount = 0
    ∧ (mainDriver connectedComponents idK (fun _ => Mesh.mk 3) 1
        (some (String.toList "a.obj")) [[[0]], [[0, 0]]] []).regions = []
    ∧ (mainDriver connectedComponents idK (fun _ => Mesh.mk 3) 1
        (some (String.toList "a.obj")) [[[0]], [[0, 0]]] []).rendered = []
    ∧ (mainDriver connectedComponents idK (fun _ => Mesh.mk 3) 1
        (some (String.toList "a.obj")) [[[0]], [[0, 0]]] []).exported = []
    ∧ (mainDriver connectedComponents idK (fun _ => Mesh.mk 3) 1
        (some (String.toList "a.obj")) [[[0]], [[0, 0]]] []).failure = none :=
  C8_empty_volume connectedComponents idK (fun _ => Mesh.mk 3) 1
    (some (String.toList "a.obj")) [[[0]], [[0, 0]]] [] (by decide) (by decide) rfl

example : connectedComponents [[1]] = (2, [[1]]) := by decide
example : connectedComponents [[0, 0]] = (1, [[0, 0]]) := by decide
example : connectedComponents [[5, 0, 7]] = (3, [[1, 0, 2]]) := by decide
example : label_connected_components connectedComponents [[[1]]] = ([[[2]]], 1) := by decide
example : label_connected_components connectedComponents [[[1]], [[1]]]
    = ([[[2]], [[3]]], 2) := by decide
example : CCContract (castUint8 [[1]]) (connectedComponents (castUint8 [[1]])) := by decide

end MeshPyVista
